import Mathlib

/-
Verification of the IR2Vec embedding engine (llvm/lib/Analysis/IR2Vec.cpp).

Shallow embedding conventions:
* `double` values are modelled as rationals (`ℚ`).
* `std::map` / `DenseMap` instances are modelled as association lists together
  with explicit lookup / insert functions mirroring the container semantics the
  source relies on (`std::map::insert` keeps existing keys, `DenseMap`
  subscript assignment overwrites).
* The mutable per-engine state (`InstVecMap`, `BBVecMap`, `FuncVector`) is
  threaded explicitly through an `EState` record.
* The parts of the repository the source file consumes but that are not under
  src/ (the LLVM IR classes, the JSON support library, the depth-first
  iterator, and the `IR2Vec.h` header declaring the engine's mutable members)
  are modelled from the spec; their doc comments say so explicitly.
-/

namespace ir2vec

/-- Embedding models the source's `Embedding` wrapper around
`std::vector<double>`; doubles are modelled as rationals. -/
abbrev Embedding := List ℚ

/-- Element-wise addition, modelling `Embedding::operator+=` /`operator+`
(the source asserts both vectors have the same dimension). -/
def Embedding.add (a b : Embedding) : Embedding := List.zipWith (· + ·) a b

/-- Element-wise scaling by a factor, modelling `Embedding::operator*=`. -/
def Embedding.scale (a : Embedding) (q : ℚ) : Embedding := a.map (fun x => x * q)

/-- Models `Embedding::approximatelyEquals`: true iff every element-wise
absolute difference is at most the tolerance. -/
def Embedding.approximatelyEquals (a b : Embedding) (tol : ℚ) : Bool :=
  (List.zip a b).all (fun p => decide (|p.1 - p.2| ≤ tol))

/-- The zero vector `Embedding(Dimension, 0)`. -/
def zeroVec (d : Nat) : Embedding := List.replicate d 0

/-- First-match lookup in an association list (models map lookup by key). -/
def alookup {α β : Type} [DecidableEq α] : List (α × β) → α → Option β
  | [], _ => none
  | p :: rest, k => if p.1 = k then some p.2 else alookup rest k

/-- Insert-or-assign into an association list; models `DenseMap::operator[]`
assignment (`InstVecMap[&I] = ...`, `BBVecMap[&BB] = ...`). -/
def upsert {α β : Type} [DecidableEq α] : List (α × β) → α → β → List (α × β)
  | [], k, v => [(k, v)]
  | p :: rest, k, v => if p.1 = k then (k, v) :: rest else p :: upsert rest k v

/-- The (merged or per-section) vocabulary `ir2vec::Vocab`: string keys mapped
to embeddings. The source's `std::map` is modelled as an association list;
entry order only determines which entry is "first", which the source uses
solely to capture the dimension. -/
abbrev Vocab := List (String × Embedding)

/-- Vocabulary lookup by string key (`Vocabulary.find(Key)`). -/
def vocabFind (v : Vocab) (k : String) : Option Embedding := alookup v k

/-- Range insertion modelling `std::map::insert(first, last)` as used at the
end of `IR2VecVocabAnalysis::readVocabulary`: an element of the inserted range
is added only when its key is not already present — existing entries are
kept, they are not overwritten. -/
def vocabInsertRange (dst src : Vocab) : Vocab :=
  src.foldl (fun d p => if (alookup d p.1).isSome then d else d ++ [p]) dst

/-- The dimension captured by the `Embedder` constructor
(`Vocabulary.begin()->second.size()`): the size of the first entry. -/
def vocabDim (v : Vocab) : Nat :=
  match v with
  | [] => 0
  | p :: _ => p.2.length

/-- Models `Embedder::lookupVocab` together with the `VocabMissCounter`
statistic, which is threaded explicitly: a hit returns the stored embedding
and leaves the counter alone; a miss returns the zero vector of the engine's
dimension and increments the counter by one. -/
def lookupVocab (vocab : Vocab) (dim : Nat) (key : String) (counter : Nat) :
    Embedding × Nat :=
  match vocabFind vocab key with
  | some v => (v, counter)
  | none => (zeroVec dim, counter + 1)

/-- The looked-up embedding alone (the miss counter is diagnostic-only). -/
def lookupVal (vocab : Vocab) (dim : Nat) (key : String) : Embedding :=
  (lookupVocab vocab dim key 0).1

/-- Modelled from the spec: the parsed vocabulary document (the JSON support
library, llvm/Support/JSON, is not under src/). Only the constructs the
vocabulary loader consumes are modelled: objects, arrays and numbers. -/
inductive JValue where
  | num (q : ℚ)
  | arr (xs : List JValue)
  | obj (fields : List (String × JValue))
  | other

/-- Models `json::Value::getAsObject`. -/
def getAsObject : JValue → Option (List (String × JValue))
  | .obj fs => some fs
  | _ => none

/-- Models `json::Object::get` (lookup of a field by name). -/
def objGet (fs : List (String × JValue)) (k : String) : Option JValue :=
  alookup fs k

/-- Modelled from the spec: decoding one JSON value as a number. -/
def decodeNum : JValue → Option ℚ
  | .num q => some q
  | _ => none

/-- Modelled from the spec: decoding a JSON value as an array of numbers
(one embedding). -/
def decodeNumList (v : JValue) : Option (List ℚ) :=
  match v with
  | .arr xs => xs.mapM decodeNum
  | _ => none

/-- Modelled from the spec: `json::fromJSON` for one vocabulary section, an
object mapping string keys to arrays of numbers. Fails when the value is not
an object or any entry fails to decode as a number array. -/
def decodeVocabMap (v : JValue) : Option Vocab :=
  match v with
  | .obj fs => fs.mapM (fun p => (decodeNumList p.2).map (fun l => (p.1, l)))
  | _ => none

/-- Models `IR2VecVocabAnalysis::parseVocabSection`. The result is layered:
the outer `Option` is `none` exactly when the source would evaluate
`TargetVocab.begin()->second.size()` on an empty section map, which
dereferences the end iterator (undefined behaviour); the inner `Except`
carries the error returns of the source. On success it returns the decoded
section together with its dimension (the length of the first entry). -/
def parseVocabSection (key : String) (root : JValue) :
    Option (Except String (Vocab × Nat)) :=
  match getAsObject root with
  | none => some (.error "JSON root is not an object")
  | some fs =>
    match objGet fs key with
    | none => some (.error ("Missing '" ++ key ++ "' section in vocabulary file"))
    | some sv =>
      match decodeVocabMap sv with
      | none => some (.error ("Unable to parse '" ++ key ++ "' section from vocabulary"))
      | some [] => none
      | some (first :: rest) =>
        let dim := first.2.length
        if dim = 0 then
          some (.error ("Dimension of '" ++ key ++ "' section of the vocabulary is zero"))
        else if (first :: rest).all (fun p => decide (p.2.length = dim)) then
          some (.ok (first :: rest, dim))
        else
          some (.error ("All vectors in the '" ++ key ++
            "' section of the vocabulary are not of the same dimension"))

/-- Scaling of one section's vectors by its weight, modelling the
`scaleVocabSection` lambda in `readVocabulary`. -/
def scaleVocabSection (v : Vocab) (w : ℚ) : Vocab :=
  v.map (fun p => (p.1, Embedding.scale p.2 w))

/-- Models `IR2VecVocabAnalysis::readVocabulary` from the parsed JSON value
onwards (file input and `json::parse` are outside the model): parse the three
sections in the order Opcodes, Types, Arguments; fail if their dimensions are
not all equal; scale each section by its weight; merge with
`std::map::insert`, which keeps earlier entries on key collision. The outer
`Option` propagates the empty-section undefined behaviour of
`parseVocabSection`. -/
def readVocabulary (opcW typeW argW : ℚ) (root : JValue) :
    Option (Except String Vocab) :=
  match parseVocabSection "Opcodes" root with
  | none => none
  | some (.error e) => some (.error e)
  | some (.ok (opcVocab, opcodeDim)) =>
    match parseVocabSection "Types" root with
    | none => none
    | some (.error e) => some (.error e)
    | some (.ok (typeVocab, typeDim)) =>
      match parseVocabSection "Arguments" root with
      | none => none
      | some (.error e) => some (.error e)
      | some (.ok (argVocab, argDim)) =>
        if opcodeDim = typeDim ∧ typeDim = argDim then
          some (.ok (vocabInsertRange (vocabInsertRange (vocabInsertRange []
            (scaleVocabSection opcVocab opcW)) (scaleVocabSection typeVocab typeW))
            (scaleVocabSection argVocab argW)))
        else
          some (.error "Vocabulary sections have different dimensions")

/-- Modelled from the spec: the operand classification inputs the engine
queries from the host IR (`isa<Function>`, pointer-typed, `isa<Constant>`).
The LLVM IR classes are external collaborators, not under src/. -/
structure Operand where
  isFunctionRef : Bool
  isPointerTy : Bool
  isConstantVal : Bool
deriving DecidableEq

/-- Modelled from the spec: the mutually exclusive type categories that
`SymbolicEmbedder::getTypeEmbedding` distinguishes with the `Type` predicates,
first match wins. -/
inductive LType where
  | voidTy | floatTy | integerTy | functionTy | structTy | arrayTy
  | pointerTy | vectorTy | emptyTy | labelTy | tokenTy | metadataTy | unknownTy
deriving DecidableEq

/-- The vocabulary key chosen by `SymbolicEmbedder::getTypeEmbedding` for each
type category. -/
def typeKey : LType → String
  | .voidTy => "voidTy"
  | .floatTy => "floatTy"
  | .integerTy => "integerTy"
  | .functionTy => "functionTy"
  | .structTy => "structTy"
  | .arrayTy => "arrayTy"
  | .pointerTy => "pointerTy"
  | .vectorTy => "vectorTy"
  | .emptyTy => "emptyTy"
  | .labelTy => "labelTy"
  | .tokenTy => "tokenTy"
  | .metadataTy => "metadataTy"
  | .unknownTy => "unknownTy"

/-- The vocabulary key chosen by `SymbolicEmbedder::getOperandEmbedding`,
checked in priority order, first match wins. -/
def operandKey (op : Operand) : String :=
  if op.isFunctionRef then "function"
  else if op.isPointerTy then "pointer"
  else if op.isConstantVal then "constant"
  else "variable"

/-- Modelled from the spec: the read-only view of one IR instruction the
engine consumes — opcode name, result type, ordered operands, and whether the
instruction is a debug or pseudo instruction (those are skipped by
`BB.instructionsWithoutDebug()`). -/
structure Instruction where
  opcodeName : String
  retType : LType
  operands : List Operand
  isDebugOrPseudo : Bool
deriving DecidableEq

/-- Modelled from the spec: a basic block — an id standing for the block's
address, its instruction list, and its successor block ids in the CFG. -/
structure BasicBlock where
  bid : Nat
  insts : List Instruction
  succs : List Nat
deriving DecidableEq

/-- Modelled from the spec: a function is its list of basic blocks; the entry
block is the first one. -/
structure LFunction where
  blocks : List BasicBlock
deriving DecidableEq

/-- Models `Function::isDeclaration`: an external declaration has no body,
i.e. no basic blocks. -/
def LFunction.isDeclaration (f : LFunction) : Bool := f.blocks.isEmpty

/-- The block of `f` with the given id, if any (models following a block
pointer). -/
def findBlock (f : LFunction) (n : Nat) : Option BasicBlock :=
  f.blocks.find? (fun b => decide (b.bid = n))

/-- Successor ids of the block with id `n` (empty when no such block). -/
def succsOf (f : LFunction) (n : Nat) : List Nat :=
  ((findBlock f n).map (fun b => b.succs)).getD []

/-- The entry block id (first block); `0` for a declaration, unused there. -/
def entryId (f : LFunction) : Nat :=
  match f.blocks.head? with
  | some b => b.bid
  | none => 0

/-- Modelled from the spec: preorder depth-first traversal of the blocks
reachable from entry (`llvm::depth_first`; DepthFirstIterator.h is not under
src/). Stack-based with a visited list; fuel-driven structural recursion,
`dfsFuel` below always suffices for the stack to empty. -/
def dfsGo (f : LFunction) : Nat → List Nat → List Nat → List Nat
  | 0, _, visited => visited
  | _ + 1, [], visited => visited
  | fuel + 1, n :: rest, visited =>
    if n ∈ visited then dfsGo f fuel rest visited
    else dfsGo f fuel (succsOf f n ++ rest) (visited ++ [n])

/-- Sufficient fuel for the traversal: one initial pop plus, for every block,
one visit and one pop per successor edge. -/
def dfsFuel (f : LFunction) : Nat :=
  1 + ((f.blocks.map (fun b => 1 + b.succs.length)).sum)

/-- The ids of the blocks visited by the depth-first traversal from entry, in
visit order. -/
def dfsIds (f : LFunction) : List Nat :=
  match f.blocks with
  | [] => []
  | _ :: _ => dfsGo f (dfsFuel f) [entryId f] []

/-- The blocks visited by the depth-first traversal, in visit order. -/
def dfsBlocks (f : LFunction) : List BasicBlock :=
  (dfsIds f).filterMap (findBlock f)

/-- A block id is reachable when it is the entry block's id or a successor of
a reachable block. -/
inductive Reaches (f : LFunction) : Nat → Prop where
  | entry : ∀ b, f.blocks.head? = some b → Reaches f b.bid
  | step : ∀ m n, Reaches f m → n ∈ succsOf f m → Reaches f n

/-- The engine: one function, one vocabulary, and the dimension captured at
construction (`Embedder::Embedder`). -/
structure Embedder where
  vocab : Vocab
  dim : Nat
  func : LFunction

/-- Models the `Embedder` constructor: the dimension is the size of the first
vocabulary entry (the vocabulary is required to be non-empty). -/
def mkEmbedder (f : LFunction) (vocab : Vocab) : Embedder :=
  ⟨vocab, vocabDim vocab, f⟩

/-- Modelled from the spec: the engine's mutable members, declared in the
IR2Vec.h header (not under src/) — the lazily filled instruction and block
caches and the running function vector, which starts as the zero vector of
the engine's dimension. Instruction keys model instruction addresses as
(block id, position of the instruction in its block). -/
structure EState where
  instVecMap : List ((Nat × Nat) × Embedding)
  bbVecMap : List (Nat × Embedding)
  funcVector : Embedding
deriving DecidableEq

/-- The state of a freshly constructed engine: empty caches, zero function
vector. -/
def initState (E : Embedder) : EState := ⟨[], [], zeroVec E.dim⟩

/-- The instructions the engine considers (`BB.instructionsWithoutDebug()`),
each paired with its position in the block. -/
def nonDebug (bb : BasicBlock) : List (Nat × Instruction) :=
  bb.insts.enum.filter (fun p => !p.2.isDebugOrPseudo)

/-- The per-instruction vector accumulated by the loop body of
`SymbolicEmbedder::computeEmbeddings(BB)`: the zero vector, plus the opcode
lookup, plus the result-type lookup, plus one operand lookup per operand in
order. -/
def instVec (E : Embedder) (i : Instruction) : Embedding :=
  i.operands.foldl
    (fun acc op => acc.add (lookupVal E.vocab E.dim (operandKey op)))
    (((zeroVec E.dim).add (lookupVal E.vocab E.dim i.opcodeName)).add
      (lookupVal E.vocab E.dim (typeKey i.retType)))

/-- The block vector: the sum of the block's non-debug instruction vectors,
starting from the zero vector. -/
def bbVec (E : Embedder) (bb : BasicBlock) : Embedding :=
  (nonDebug bb).foldl (fun acc p => acc.add (instVec E p.2)) (zeroVec E.dim)

/-- Models `SymbolicEmbedder::computeEmbeddings(const BasicBlock &)`: store
every non-debug instruction's vector in the instruction map and the block's
summed vector in the block map. -/
def computeEmbeddingsBB (E : Embedder) (bb : BasicBlock) (s : EState) : EState :=
  { s with
    instVecMap := (nonDebug bb).foldl
      (fun m p => upsert m (bb.bid, p.1) (instVec E p.2)) s.instVecMap,
    bbVecMap := upsert s.bbVecMap bb.bid (bbVec E bb) }

/-- Models `SymbolicEmbedder::computeEmbeddings()`: return unchanged for a
declaration; otherwise, for every depth-first-reachable block, compute its
embeddings and add the just-stored block vector (`BBVecMap[BB]`, defaulting
to the empty embedding like `DenseMap::operator[]`) onto the running function
vector — which is notably never reset. -/
def computeEmbeddingsF (E : Embedder) (s : EState) : EState :=
  if E.func.isDeclaration then s
  else
    (dfsBlocks E.func).foldl
      (fun st bb =>
        let st' := computeEmbeddingsBB E bb st
        { st' with
          funcVector := st'.funcVector.add ((alookup st'.bbVecMap bb.bid).getD []) })
      s

/-- Models `Embedder::getInstVecMap`: compute everything if the instruction
map is empty, then return it. -/
def getInstVecMap (E : Embedder) (s : EState) :
    EState × List ((Nat × Nat) × Embedding) :=
  let s' := if s.instVecMap.isEmpty then computeEmbeddingsF E s else s
  (s', s'.instVecMap)

/-- Models `Embedder::getBBVecMap`: compute everything if the block map is
empty, then return it. -/
def getBBVecMap (E : Embedder) (s : EState) : EState × List (Nat × Embedding) :=
  let s' := if s.bbVecMap.isEmpty then computeEmbeddingsF E s else s
  (s', s'.bbVecMap)

/-- Models `Embedder::getBBVector`: return the cached vector when present;
otherwise compute the embeddings of that single block and return its fresh
entry. -/
def getBBVector (E : Embedder) (bb : BasicBlock) (s : EState) :
    EState × Embedding :=
  match alookup s.bbVecMap bb.bid with
  | some v => (s, v)
  | none =>
    let s' := computeEmbeddingsBB E bb s
    (s', (alookup s'.bbVecMap bb.bid).getD [])

/-- Models `Embedder::getFunctionVector`: always re-run the whole computation,
then return the running function vector. -/
def getFunctionVector (E : Embedder) (s : EState) : EState × Embedding :=
  let s' := computeEmbeddingsF E s
  (s', s'.funcVector)

/-- One of the three whole-function accessors of the engine. -/
inductive Accessor where
  | instMapAcc | bbMapAcc | funcVecAcc
deriving DecidableEq

/-- Run one accessor for its state effect. -/
def runAccessor (E : Embedder) (s : EState) : Accessor → EState
  | .instMapAcc => (getInstVecMap E s).1
  | .bbMapAcc => (getBBVecMap E s).1
  | .funcVecAcc => (getFunctionVector E s).1

/-- Run a sequence of accessor calls from a starting state. -/
def runAccessors (E : Embedder) (s : EState) (l : List Accessor) : EState :=
  l.foldl (runAccessor E) s

/-! ### Association-list lemmas -/

/-- The first of two optional results, as chained map lookups produce it. -/
def ofirst {β : Type} : Option β → Option β → Option β
  | some v, _ => some v
  | none, b => b

theorem ofirst_some {β : Type} (v : β) (b : Option β) : ofirst (some v) b = some v := rfl

theorem ofirst_none {β : Type} (b : Option β) : ofirst none b = b := rfl

theorem ofirst_assoc {β : Type} (a b c : Option β) :
    ofirst (ofirst a b) c = ofirst a (ofirst b c) := by
  cases a <;> simp [ofirst]

theorem alookup_nil {α β : Type} [DecidableEq α] (k : α) :
    alookup ([] : List (α × β)) k = none := rfl

theorem alookup_cons {α β : Type} [DecidableEq α] (p : α × β) (rest : List (α × β)) (k : α) :
    alookup (p :: rest) k = if p.1 = k then some p.2 else alookup rest k := rfl

theorem alookup_append {α β : Type} [DecidableEq α] (a b : List (α × β)) (k : α) :
    alookup (a ++ b) k = ofirst (alookup a k) (alookup b k) := by
  induction a with
  | nil => simp [alookup_nil, ofirst_none]
  | cons p rest ih =>
    by_cases h : p.1 = k
    · simp [alookup_cons, h, ofirst_some]
    · simp [alookup_cons, h, ih]

theorem alookup_upsert_self {α β : Type} [DecidableEq α] (m : List (α × β)) (k : α) (v : β) :
    alookup (upsert m k v) k = some v := by
  induction m with
  | nil => simp [upsert, alookup_cons]
  | cons p rest ih =>
    by_cases h : p.1 = k
    · simp [upsert, h, alookup_cons]
    · simp [upsert, h, alookup_cons, ih]

theorem alookup_upsert_ne {α β : Type} [DecidableEq α] (m : List (α × β)) (k k' : α) (v : β)
    (h : k' ≠ k) : alookup (upsert m k v) k' = alookup m k' := by
  induction m with
  | nil =>
    simp only [upsert, alookup_cons, alookup_nil]
    exact if_neg (fun hh => h hh.symm)
  | cons p rest ih =>
    obtain ⟨a, b⟩ := p
    by_cases hp : a = k
    · subst hp
      rw [upsert, if_pos rfl, alookup_cons, alookup_cons]
      simp only [if_neg (fun hh : a = k' => h hh.symm)]
    · rw [upsert, if_neg hp, alookup_cons, alookup_cons, ih]

theorem alookup_foldl_upsert_of_not_mem {α β γ : Type} [DecidableEq α]
    (keyf : γ → α) (valf : γ → β) (l : List γ) (m0 : List (α × β)) (k : α)
    (hk : k ∉ l.map keyf) :
    alookup (l.foldl (fun m x => upsert m (keyf x) (valf x)) m0) k = alookup m0 k := by
  induction l generalizing m0 with
  | nil => rfl
  | cons x rest ih =>
    simp only [List.map_cons, List.mem_cons, not_or] at hk
    simp only [List.foldl_cons]
    rw [ih _ hk.2, alookup_upsert_ne _ _ _ _ hk.1]

theorem alookup_foldl_upsert_isSome {α β γ : Type} [DecidableEq α]
    (keyf : γ → α) (valf : γ → β) (l : List γ) (m0 : List (α × β)) (k : α) :
    (alookup (l.foldl (fun m x => upsert m (keyf x) (valf x)) m0) k).isSome
      ↔ (k ∈ l.map keyf ∨ (alookup m0 k).isSome) := by
  induction l generalizing m0 with
  | nil => simp
  | cons x rest ih =>
    simp only [List.foldl_cons, List.map_cons, List.mem_cons]
    rw [ih]
    by_cases h : k = keyf x
    · subst h
      simp [alookup_upsert_self]
    · rw [alookup_upsert_ne _ _ _ _ h]
      tauto

theorem alookup_foldl_upsert_mem {α β γ : Type} [DecidableEq α]
    (keyf : γ → α) (valf : γ → β) (l : List γ) (m0 : List (α × β))
    (hnd : (l.map keyf).Nodup) (x : γ) (hx : x ∈ l) :
    alookup (l.foldl (fun m y => upsert m (keyf y) (valf y)) m0) (keyf x) = some (valf x) := by
  induction l generalizing m0 with
  | nil => cases hx
  | cons y rest ih =>
    simp only [List.map_cons, List.nodup_cons] at hnd
    rcases List.mem_cons.1 hx with h | h
    · subst h
      simp only [List.foldl_cons]
      rw [alookup_foldl_upsert_of_not_mem _ _ _ _ _ hnd.1, alookup_upsert_self]
    · exact ih _ hnd.2 h

/-! ### Vocabulary merge and scaling lemmas -/

theorem alookup_insertRange (dst src : Vocab) (k : String) :
    alookup (vocabInsertRange dst src) k = ofirst (alookup dst k) (alookup src k) := by
  induction src generalizing dst with
  | nil =>
    cases h : alookup dst k <;> simp [vocabInsertRange, alookup_nil, h, ofirst]
  | cons p rest ih =>
    simp only [vocabInsertRange, List.foldl_cons] at ih ⊢
    by_cases hp : (alookup dst p.1).isSome
    · simp only [hp, if_true]
      rw [ih]
      by_cases hk : p.1 = k
      · subst hk
        rcases Option.isSome_iff_exists.1 hp with ⟨v, hv⟩
        simp [hv, ofirst]
      · simp [alookup_cons, hk]
    · simp only [hp, Bool.false_eq_true, if_false]
      rw [ih, alookup_append, ofirst_assoc]
      by_cases hk : p.1 = k
      · subst hk
        rw [Option.not_isSome_iff_eq_none] at hp
        simp [hp, alookup_cons, alookup_nil, ofirst]
      · simp [alookup_cons, alookup_nil, hk, ofirst]

theorem alookup_scale (v : Vocab) (w : ℚ) (k : String) :
    alookup (scaleVocabSection v w) k
      = (alookup v k).map (fun e => Embedding.scale e w) := by
  induction v with
  | nil => rfl
  | cons p rest ih =>
    by_cases h : p.1 = k
    · simp [scaleVocabSection, alookup_cons, h]
    · simpa [scaleVocabSection, alookup_cons, h] using ih

theorem insertRange_ne_nil (dst src : Vocab) (h : dst ≠ []) :
    vocabInsertRange dst src ≠ [] := by
  induction src generalizing dst with
  | nil => simpa [vocabInsertRange]
  | cons p rest ih =>
    simp only [vocabInsertRange, List.foldl_cons] at ih ⊢
    by_cases hp : (alookup dst p.1).isSome
    · simp only [hp, if_true]
      exact ih dst h
    · simp only [hp, Bool.false_eq_true, if_false]
      exact ih _ (by simp)

/-! ### Depth-first traversal lemmas -/

/-- Remaining traversal work in the unvisited blocks: one visit plus one pop
per successor edge for each block not yet visited. -/
def dfsWeight (f : LFunction) (visited : List Nat) : Nat :=
  ((f.blocks.filter (fun b => !decide (b.bid ∈ visited))).map
    (fun b => 1 + b.succs.length)).sum

/-- Fuel measure for `dfsGo`: pending stack entries plus remaining work. -/
def dfsPhi (f : LFunction) (stack visited : List Nat) : Nat :=
  stack.length + dfsWeight f visited

theorem sum_filter_add_le {γ : Type} (w : γ → Nat) (p : γ → Bool) (l : List γ) (b0 : γ)
    (hb : b0 ∈ l) (hp : p b0 = false) :
    ((l.filter p).map w).sum + w b0 ≤ (l.map w).sum := by
  induction l with
  | nil => cases hb
  | cons z rest ih =>
    have hsub : ((rest.filter p).map w).sum ≤ (rest.map w).sum := by
      apply List.Sublist.sum_le_sum ((rest.filter_sublist).map w)
      intro a _
      exact Nat.zero_le a
    rcases List.mem_cons.1 hb with h | h
    · subst h
      rw [List.filter_cons]
      simp only [hp, Bool.false_eq_true, if_false, List.map_cons, List.sum_cons]
      omega
    · have hrest := ih h
      cases hpz : p z <;>
        · rw [List.filter_cons]
          simp only [hpz, if_true, if_false, Bool.false_eq_true, Bool.true_eq_false,
            List.map_cons, List.sum_cons]
          omega

theorem dfsWeight_append_of_no_block (f : LFunction) (visited : List Nat) (n : Nat)
    (h : findBlock f n = none) :
    dfsWeight f (visited ++ [n]) = dfsWeight f visited := by
  unfold dfsWeight
  have hall : ∀ b ∈ f.blocks, ¬(b.bid = n) := by
    intro b hbmem
    have := List.find?_eq_none.1 h b hbmem
    simpa using this
  have : ∀ b ∈ f.blocks,
      (!decide (b.bid ∈ visited ++ [n])) = (!decide (b.bid ∈ visited)) := by
    intro b hbmem
    have hne := hall b hbmem
    simp [List.mem_append, hne]
  rw [List.filter_congr this]

theorem dfsWeight_append_of_block (f : LFunction) (visited : List Nat) (n : Nat)
    (b0 : BasicBlock) (h : findBlock f n = some b0) (hn : n ∉ visited) :
    dfsWeight f (visited ++ [n]) + (1 + b0.succs.length) ≤ dfsWeight f visited := by
  have hb0mem : b0 ∈ f.blocks := List.mem_of_find?_eq_some h
  have hb0bid : b0.bid = n := by
    have := List.find?_some h
    simpa using this
  -- rewrite the filter over the extended visited list as a sub-filter
  have hsplit : f.blocks.filter (fun b => !decide (b.bid ∈ visited ++ [n]))
      = (f.blocks.filter (fun b => !decide (b.bid ∈ visited))).filter
          (fun b => !decide (b.bid = n)) := by
    rw [List.filter_filter]
    apply List.filter_congr
    intro b _
    by_cases h1 : b.bid ∈ visited <;> by_cases h2 : b.bid = n <;>
      simp [List.mem_append, h1, h2]
  unfold dfsWeight
  rw [hsplit]
  have hb0in : b0 ∈ f.blocks.filter (fun b => !decide (b.bid ∈ visited)) := by
    rw [List.mem_filter]
    refine ⟨hb0mem, ?_⟩
    simp [hb0bid, hn]
  have hle := sum_filter_add_le (fun b => 1 + b.succs.length)
    (fun b => !decide (b.bid = n))
    (f.blocks.filter (fun b => !decide (b.bid ∈ visited))) b0 hb0in (by simp [hb0bid])
  have hbeta : ((fun b => 1 + b.succs.length) b0) = 1 + b0.succs.length := rfl
  rw [hbeta] at hle
  omega

theorem dfsPhi_step_lt (f : LFunction) (rest visited : List Nat) (n : Nat)
    (hn : n ∉ visited) :
    dfsPhi f (succsOf f n ++ rest) (visited ++ [n]) < dfsPhi f (n :: rest) visited := by
  cases hfb : findBlock f n with
  | none =>
    have hsuccs : succsOf f n = [] := by simp [succsOf, hfb]
    unfold dfsPhi
    rw [dfsWeight_append_of_no_block f visited n hfb, hsuccs]
    simp
  | some b0 =>
    have hsuccs : succsOf f n = b0.succs := by simp [succsOf, hfb]
    have := dfsWeight_append_of_block f visited n b0 hfb hn
    unfold dfsPhi
    rw [hsuccs]
    simp only [List.length_append, List.length_cons]
    omega

theorem dfsGo_visited_subset (f : LFunction) (fuel : Nat) :
    ∀ stack visited, ∀ x ∈ visited, x ∈ dfsGo f fuel stack visited := by
  induction fuel with
  | zero => intro stack visited x hx; simpa [dfsGo] using hx
  | succ fuel ih =>
    intro stack visited x hx
    match stack with
    | [] => simpa [dfsGo] using hx
    | n :: rest =>
      by_cases hn : n ∈ visited
      · simp only [dfsGo, if_pos hn]
        exact ih rest visited x hx
      · simp only [dfsGo, if_neg hn]
        exact ih _ _ x (by simp [hx])

theorem dfsGo_stack_subset (f : LFunction) (fuel : Nat) :
    ∀ stack visited, dfsPhi f stack visited ≤ fuel →
      ∀ x ∈ stack, x ∈ dfsGo f fuel stack visited := by
  induction fuel with
  | zero =>
    intro stack visited hphi x hx
    have : stack.length = 0 := by
      unfold dfsPhi at hphi
      omega
    rw [List.length_eq_zero] at this
    subst this
    cases hx
  | succ fuel ih =>
    intro stack visited hphi x hx
    match stack with
    | [] => cases hx
    | n :: rest =>
      by_cases hn : n ∈ visited
      · simp only [dfsGo, if_pos hn]
        rcases List.mem_cons.1 hx with h | h
        · subst h
          exact dfsGo_visited_subset f fuel rest visited x hn
        · apply ih rest visited _ x h
          unfold dfsPhi at hphi ⊢
          simp only [List.length_cons] at hphi
          omega
      · simp only [dfsGo, if_neg hn]
        have hphi' : dfsPhi f (succsOf f n ++ rest) (visited ++ [n]) ≤ fuel := by
          have := dfsPhi_step_lt f rest visited n hn
          omega
        rcases List.mem_cons.1 hx with h | h
        · subst h
          exact dfsGo_visited_subset f fuel _ _ x (by simp)
        · exact ih _ _ hphi' x (by simp [h])

theorem dfsGo_closed (f : LFunction) (fuel : Nat) :
    ∀ stack visited, dfsPhi f stack visited ≤ fuel →
      (∀ m ∈ visited, ∀ x ∈ succsOf f m, x ∈ visited ∨ x ∈ stack) →
      ∀ m ∈ dfsGo f fuel stack visited, ∀ x ∈ succsOf f m,
        x ∈ dfsGo f fuel stack visited := by
  induction fuel with
  | zero =>
    intro stack visited hphi hinv m hm x hx
    have : stack.length = 0 := by
      unfold dfsPhi at hphi
      omega
    rw [List.length_eq_zero] at this
    subst this
    simp only [dfsGo] at hm ⊢
    rcases hinv m hm x hx with h | h
    · exact h
    · cases h
  | succ fuel ih =>
    intro stack visited hphi hinv m hm x hx
    match stack with
    | [] =>
      simp only [dfsGo] at hm ⊢
      rcases hinv m hm x hx with h | h
      · exact h
      · cases h
    | n :: rest =>
      by_cases hn : n ∈ visited
      · simp only [dfsGo, if_pos hn] at hm ⊢
        refine ih rest visited ?_ ?_ m hm x hx
        · unfold dfsPhi at hphi ⊢
          simp only [List.length_cons] at hphi
          omega
        · intro m' hm' x' hx'
          rcases hinv m' hm' x' hx' with h | h
          · exact Or.inl h
          · rcases List.mem_cons.1 h with h' | h'
            · exact Or.inl (h' ▸ hn)
            · exact Or.inr h'
      · simp only [dfsGo, if_neg hn] at hm ⊢
        have hphi' : dfsPhi f (succsOf f n ++ rest) (visited ++ [n]) ≤ fuel := by
          have := dfsPhi_step_lt f rest visited n hn
          omega
        refine ih _ _ hphi' ?_ m hm x hx
        intro m' hm' x' hx'
        rcases List.mem_append.1 hm' with h | h
        · rcases hinv m' h x' hx' with h' | h'
          · exact Or.inl (by simp [h'])
          · rcases List.mem_cons.1 h' with h'' | h''
            · exact Or.inl (by simp [h''])
            · exact Or.inr (by simp [h''])
        · have : m' = n := by simpa using h
          subst this
          exact Or.inr (by simp [hx'])

theorem dfsGo_sound (f : LFunction) (fuel : Nat) :
    ∀ stack visited, (∀ x ∈ stack, Reaches f x) → (∀ x ∈ visited, Reaches f x) →
      ∀ x ∈ dfsGo f fuel stack visited, Reaches f x := by
  induction fuel with
  | zero =>
    intro stack visited _ hvis x hx
    exact hvis x (by simpa [dfsGo] using hx)
  | succ fuel ih =>
    intro stack visited hstk hvis x hx
    match stack with
    | [] => exact hvis x (by simpa [dfsGo] using hx)
    | n :: rest =>
      by_cases hn : n ∈ visited
      · simp only [dfsGo, if_pos hn] at hx
        exact ih rest visited (fun y hy => hstk y (by simp [hy])) hvis x hx
      · simp only [dfsGo, if_neg hn] at hx
        have hreach : Reaches f n := hstk n (by simp)
        refine ih _ _ ?_ ?_ x hx
        · intro y hy
          rcases List.mem_append.1 hy with h | h
          · exact Reaches.step n y hreach h
          · exact hstk y (by simp [h])
        · intro y hy
          rcases List.mem_append.1 hy with h | h
          · exact hvis y h
          · have : y = n := by simpa using h
            exact this ▸ hreach

theorem dfsGo_nodup (f : LFunction) (fuel : Nat) :
    ∀ stack visited, visited.Nodup → (dfsGo f fuel stack visited).Nodup := by
  induction fuel with
  | zero => intro stack visited h; simpa [dfsGo]
  | succ fuel ih =>
    intro stack visited h
    match stack with
    | [] => simpa [dfsGo]
    | n :: rest =>
      by_cases hn : n ∈ visited
      · simp only [dfsGo, if_pos hn]
        exact ih rest visited h
      · simp only [dfsGo, if_neg hn]
        refine ih _ _ ?_
        simp [List.nodup_append, h, hn]

theorem dfsPhi_init (f : LFunction) :
    dfsPhi f [entryId f] [] ≤ dfsFuel f := by
  unfold dfsPhi dfsWeight dfsFuel
  have : f.blocks.filter (fun b => !decide (b.bid ∈ ([] : List Nat))) = f.blocks := by
    apply List.filter_eq_self.2
    intro b _
    simp
  rw [this]
  simp

theorem dfsIds_eq (f : LFunction) (bb : BasicBlock) (tl : List BasicBlock)
    (hbl : f.blocks = bb :: tl) :
    dfsIds f = dfsGo f (dfsFuel f) [entryId f] [] := by
  unfold dfsIds
  rw [hbl]

theorem reaches_blocks_ne_nil (f : LFunction) (x : Nat) (h : Reaches f x) :
    f.blocks ≠ [] := by
  induction h with
  | entry b hb =>
    intro hnil
    rw [hnil] at hb
    cases hb
  | step m n _ _ ih => exact ih

theorem mem_dfsIds_of_reaches (f : LFunction) (x : Nat) (h : Reaches f x) :
    x ∈ dfsIds f := by
  induction h with
  | entry b hb =>
    obtain ⟨bb, tl, hbl⟩ :=
      List.exists_cons_of_ne_nil (reaches_blocks_ne_nil f _ (Reaches.entry b hb))
    rw [dfsIds_eq f bb tl hbl]
    have hentry : entryId f = b.bid := by
      unfold entryId
      rw [hb]
    have hmem := dfsGo_stack_subset f (dfsFuel f) [entryId f] [] (dfsPhi_init f)
      (entryId f) (by simp)
    rw [← hentry]
    exact hmem
  | step m n hmR hsucc ih =>
    obtain ⟨bb, tl, hbl⟩ := List.exists_cons_of_ne_nil (reaches_blocks_ne_nil f m hmR)
    rw [dfsIds_eq f bb tl hbl] at ih ⊢
    exact dfsGo_closed f (dfsFuel f) [entryId f] [] (dfsPhi_init f)
      (by intro m' hm'; cases hm') m ih n hsucc

theorem reaches_of_mem_dfsIds (f : LFunction) (x : Nat) (h : x ∈ dfsIds f) :
    Reaches f x := by
  cases hbl : f.blocks with
  | nil =>
    unfold dfsIds at h
    rw [hbl] at h
    cases h
  | cons bb tl =>
    rw [dfsIds_eq f bb tl hbl] at h
    refine dfsGo_sound f (dfsFuel f) [entryId f] [] ?_ (by intro y hy; cases hy) x h
    intro y hy
    have hy' : y = entryId f := by simpa using hy
    subst hy'
    have hhead : f.blocks.head? = some bb := by rw [hbl]; rfl
    have hentry : entryId f = bb.bid := by
      unfold entryId
      rw [hhead]
    rw [hentry]
    exact Reaches.entry bb hhead

theorem dfsIds_nodup (f : LFunction) : (dfsIds f).Nodup := by
  cases hbl : f.blocks with
  | nil =>
    unfold dfsIds
    rw [hbl]
    simp
  | cons bb tl =>
    rw [dfsIds_eq f bb tl hbl]
    exact dfsGo_nodup f (dfsFuel f) _ [] (by simp)

/-! ### Engine state characterization -/

instance exceptDecEq {ε α : Type} [DecidableEq ε] [DecidableEq α] :
    DecidableEq (Except ε α) := fun a b =>
  match a, b with
  | .ok x, .ok y => if h : x = y then .isTrue (by simp [h]) else .isFalse (by simp [h])
  | .error x, .error y => if h : x = y then .isTrue (by simp [h]) else .isFalse (by simp [h])
  | .ok _, .error _ => .isFalse (by simp)
  | .error _, .ok _ => .isFalse (by simp)

/-- The instruction map produced by running the per-block computation over a
list of blocks. -/
def instMapFold (E : Embedder) (l : List BasicBlock)
    (m : List ((Nat × Nat) × Embedding)) : List ((Nat × Nat) × Embedding) :=
  l.foldl (fun m bb => (nonDebug bb).foldl
    (fun m p => upsert m (bb.bid, p.1) (instVec E p.2)) m) m

/-- The block map produced by running the per-block computation over a list
of blocks. -/
def bbMapFold (E : Embedder) (l : List BasicBlock) (m : List (Nat × Embedding)) :
    List (Nat × Embedding) :=
  l.foldl (fun m bb => upsert m bb.bid (bbVec E bb)) m

/-- The function vector accumulated over a list of blocks. -/
def funcVecFold (E : Embedder) (l : List BasicBlock) (v : Embedding) : Embedding :=
  l.foldl (fun v bb => v.add (bbVec E bb)) v

theorem computeF_fold_char (E : Embedder) (l : List BasicBlock) (s : EState) :
    l.foldl (fun st bb =>
        let st' := computeEmbeddingsBB E bb st
        { st' with
          funcVector := st'.funcVector.add ((alookup st'.bbVecMap bb.bid).getD []) }) s
      = ⟨instMapFold E l s.instVecMap, bbMapFold E l s.bbVecMap,
          funcVecFold E l s.funcVector⟩ := by
  induction l generalizing s with
  | nil => rfl
  | cons bb rest ih =>
    simp only [List.foldl_cons, instMapFold, bbMapFold, funcVecFold]
    have hstep : (let st' := computeEmbeddingsBB E bb s
        { st' with
          funcVector := st'.funcVector.add ((alookup st'.bbVecMap bb.bid).getD []) })
      = (⟨(nonDebug bb).foldl (fun m p => upsert m (bb.bid, p.1) (instVec E p.2)) s.instVecMap,
         upsert s.bbVecMap bb.bid (bbVec E bb),
         s.funcVector.add (bbVec E bb)⟩ : EState) := by
      simp only [computeEmbeddingsBB]
      rw [alookup_upsert_self]
      rfl
    rw [hstep, ih]
    rfl

theorem computeF_of_ne_nil (E : Embedder) (h : E.func.blocks ≠ []) (s : EState) :
    computeEmbeddingsF E s
      = ⟨instMapFold E (dfsBlocks E.func) s.instVecMap,
          bbMapFold E (dfsBlocks E.func) s.bbVecMap,
          funcVecFold E (dfsBlocks E.func) s.funcVector⟩ := by
  unfold computeEmbeddingsF
  rw [if_neg (by simpa [LFunction.isDeclaration, List.isEmpty_iff])]
  exact computeF_fold_char E (dfsBlocks E.func) s

theorem computeF_of_declaration (E : Embedder) (h : E.func.blocks = []) (s : EState) :
    computeEmbeddingsF E s = s := by
  unfold computeEmbeddingsF
  rw [if_pos (by simpa [LFunction.isDeclaration, List.isEmpty_iff])]

/-! ### Reachability and block lookup, under a well-formed CFG -/

/-- Well-formed control-flow data, as C++ block pointers guarantee it: block
ids are distinct and every successor id belongs to a block of the function. -/
def WFCfg (f : LFunction) : Prop :=
  (f.blocks.map (fun b => b.bid)).Nodup
  ∧ ∀ b ∈ f.blocks, ∀ sid ∈ b.succs, sid ∈ f.blocks.map (fun b => b.bid)

theorem reaches_mem_bids (f : LFunction) (hwf : WFCfg f) (x : Nat)
    (h : Reaches f x) : x ∈ f.blocks.map (fun b => b.bid) := by
  induction h with
  | entry b hb =>
    exact List.mem_map_of_mem _ (List.mem_of_mem_head? hb)
  | step m n _ hsucc ih =>
    cases hfb : findBlock f m with
    | none => rw [succsOf, hfb] at hsucc; cases hsucc
    | some b0 =>
      rw [succsOf, hfb] at hsucc
      exact hwf.2 b0 (List.mem_of_find?_eq_some hfb) n hsucc

theorem findBlock_of_mem_bids (f : LFunction) (n : Nat)
    (h : n ∈ f.blocks.map (fun b => b.bid)) :
    ∃ b, findBlock f n = some b ∧ b.bid = n := by
  rcases List.mem_map.1 h with ⟨b, hbmem, hbid⟩
  have hsome : (f.blocks.find? (fun b => decide (b.bid = n))).isSome :=
    List.find?_isSome.2 ⟨b, hbmem, by simp [hbid]⟩
  rcases Option.isSome_iff_exists.1 hsome with ⟨b', hb'⟩
  refine ⟨b', hb', ?_⟩
  have := List.find?_some hb'
  simpa using this

theorem filterMap_findBlock_map_bid (f : LFunction) (l : List Nat)
    (h : ∀ n ∈ l, ∃ b, findBlock f n = some b ∧ b.bid = n) :
    (l.filterMap (findBlock f)).map (fun b => b.bid) = l := by
  induction l with
  | nil => rfl
  | cons n rest ih =>
    rcases h n (by simp) with ⟨b, hb, hbid⟩
    rw [List.filterMap_cons, hb]
    simp only [List.map_cons, hbid]
    rw [ih (fun m hm => h m (by simp [hm]))]

theorem dfsBlocks_map_bid (f : LFunction) (hwf : WFCfg f) :
    (dfsBlocks f).map (fun b => b.bid) = dfsIds f := by
  apply filterMap_findBlock_map_bid
  intro n hn
  exact findBlock_of_mem_bids f n
    (reaches_mem_bids f hwf n (reaches_of_mem_dfsIds f n hn))

theorem mem_blocks_of_mem_dfsBlocks (f : LFunction) (bb : BasicBlock) :
    bb ∈ dfsBlocks f → bb ∈ f.blocks := by
  intro h
  rcases List.mem_filterMap.1 h with ⟨n, _, hfb⟩
  exact List.mem_of_find?_eq_some hfb

/-! ### Instruction map lemmas -/

theorem instMapFold_nil (E : Embedder) (m : List ((Nat × Nat) × Embedding)) :
    instMapFold E [] m = m := rfl

theorem instMapFold_cons (E : Embedder) (bb : BasicBlock) (rest : List BasicBlock)
    (m : List ((Nat × Nat) × Embedding)) :
    instMapFold E (bb :: rest) m
      = instMapFold E rest
          ((nonDebug bb).foldl (fun m p => upsert m (bb.bid, p.1) (instVec E p.2)) m) := rfl

theorem bbMapFold_nil (E : Embedder) (m : List (Nat × Embedding)) :
    bbMapFold E [] m = m := rfl

theorem bbMapFold_cons (E : Embedder) (bb : BasicBlock) (rest : List BasicBlock)
    (m : List (Nat × Embedding)) :
    bbMapFold E (bb :: rest) m = bbMapFold E rest (upsert m bb.bid (bbVec E bb)) := rfl

theorem nonDebug_keys_nodup (bb : BasicBlock) :
    ((nonDebug bb).map (fun p => (bb.bid, p.1))).Nodup := by
  have h1 : ((nonDebug bb).map Prod.fst).Nodup := by
    have hsub : List.Sublist ((nonDebug bb).map Prod.fst) (bb.insts.enum.map Prod.fst) :=
      List.Sublist.map _ (List.filter_sublist _)
    rw [List.enum_map_fst] at hsub
    exact (List.nodup_range _).sublist hsub
  have h2 : (nonDebug bb).map (fun p => (bb.bid, p.1))
      = ((nonDebug bb).map Prod.fst).map (fun i => (bb.bid, i)) := by
    rw [List.map_map]
    rfl
  rw [h2]
  refine h1.map ?_
  intro a b hab
  simpa using hab

theorem alookup_instMapFold_of_fst_ne (E : Embedder) (l : List BasicBlock)
    (m : List ((Nat × Nat) × Embedding)) (k : Nat × Nat)
    (h : ∀ bb ∈ l, k.1 ≠ bb.bid) :
    alookup (instMapFold E l m) k = alookup m k := by
  induction l generalizing m with
  | nil => rfl
  | cons bb rest ih =>
    rw [instMapFold_cons]
    rw [ih _ (fun b hb => h b (List.mem_cons_of_mem _ hb))]
    apply alookup_foldl_upsert_of_not_mem
    intro hk
    rcases List.mem_map.1 hk with ⟨p, _, hp⟩
    exact h bb (List.mem_cons_self _ _) (by rw [← hp])

theorem alookup_instMapFold_mem (E : Embedder) (l : List BasicBlock)
    (m : List ((Nat × Nat) × Embedding)) (hnd : (l.map (fun b => b.bid)).Nodup)
    (bb : BasicBlock) (hbb : bb ∈ l) (p : Nat × Instruction) (hp : p ∈ nonDebug bb) :
    alookup (instMapFold E l m) (bb.bid, p.1) = some (instVec E p.2) := by
  induction l generalizing m with
  | nil => cases hbb
  | cons b0 rest ih =>
    simp only [List.map_cons, List.nodup_cons] at hnd
    rw [instMapFold_cons]
    rcases List.mem_cons.1 hbb with h | h
    · subst h
      rw [alookup_instMapFold_of_fst_ne]
      · have hmem := alookup_foldl_upsert_mem (fun p : Nat × Instruction => (bb.bid, p.1))
          (fun p => instVec E p.2) (nonDebug bb) m (nonDebug_keys_nodup bb) p hp
        exact hmem
      · intro b hb hbid
        apply hnd.1
        rw [show bb.bid = b.bid from hbid]
        exact List.mem_map_of_mem _ hb
    · exact ih _ hnd.2 h

theorem alookup_bbMapFold_of_not_mem (E : Embedder) (l : List BasicBlock)
    (m : List (Nat × Embedding)) (k : Nat) (h : k ∉ l.map (fun b => b.bid)) :
    alookup (bbMapFold E l m) k = alookup m k := by
  have := alookup_foldl_upsert_of_not_mem (fun b : BasicBlock => b.bid)
    (fun b => bbVec E b) l m k h
  simpa [bbMapFold] using this

theorem alookup_bbMapFold_isSome (E : Embedder) (l : List BasicBlock)
    (m : List (Nat × Embedding)) (k : Nat) :
    (alookup (bbMapFold E l m) k).isSome
      ↔ (k ∈ l.map (fun b => b.bid) ∨ (alookup m k).isSome) := by
  have := alookup_foldl_upsert_isSome (fun b : BasicBlock => b.bid)
    (fun b => bbVec E b) l m k
  simpa [bbMapFold] using this

theorem alookup_bbMapFold_mem (E : Embedder) (l : List BasicBlock)
    (m : List (Nat × Embedding)) (hnd : (l.map (fun b => b.bid)).Nodup)
    (bb : BasicBlock) (hbb : bb ∈ l) :
    alookup (bbMapFold E l m) bb.bid = some (bbVec E bb) := by
  have := alookup_foldl_upsert_mem (fun b : BasicBlock => b.bid)
    (fun b => bbVec E b) l m hnd bb hbb
  simpa [bbMapFold] using this

/-! ### Concrete example inputs -/

/-- A plain variable operand: not a function reference, not pointer-typed,
not a constant. -/
def varOp : Operand := ⟨false, false, false⟩

/-- The spec's example vocabulary: `add` ↦ [1,0], `integerTy` ↦ [0,1],
`variable` ↦ [0,1]. -/
def vocabEx : Vocab := [("add", [1, 0]), ("integerTy", [0, 1]), ("variable", [0, 1])]

/-- An integer add of two variable operands. -/
def addInst : Instruction := ⟨"add", .integerTy, [varOp, varOp], false⟩

/-- A single block holding exactly the one add instruction. -/
def addBlock : BasicBlock := ⟨0, [addInst], []⟩

/-- A function whose body is that single reachable block. -/
def addFunc : LFunction := ⟨[addBlock]⟩

/-- The engine for `addFunc` over the example vocabulary. -/
def addEmbedder : Embedder := mkEmbedder addFunc vocabEx

/-! ### Claim theorems: the embedding engine -/

/-- C4: for a function whose body is a single reachable block containing one
integer add of two variable operands, against the vocabulary
`add ↦ [1,0], integerTy ↦ [0,1], variable ↦ [0,1]`, the instruction's
embedding is `[1,0]+[0,1]+[0,1]+[0,1] = [1,3]` starting from the zero vector,
and the block vector, the stored maps and the function vector all equal the
same `[1,3]`. -/
theorem c4_single_add_instruction_vectors :
    instVec addEmbedder addInst = [1, 3]
    ∧ bbVec addEmbedder addBlock = [1, 3]
    ∧ alookup (getFunctionVector addEmbedder (initState addEmbedder)).1.instVecMap (0, 0)
        = some [1, 3]
    ∧ alookup (getFunctionVector addEmbedder (initState addEmbedder)).1.bbVecMap 0
        = some [1, 3]
    ∧ (getBBVector addEmbedder addBlock (initState addEmbedder)).2 = [1, 3]
    ∧ (getFunctionVector addEmbedder (initState addEmbedder)).2 = [1, 3] := by
  with_unfolding_all decide

/-- C1 is a code bug: `SymbolicEmbedder::computeEmbeddings()` accumulates
into `FuncVector` without ever resetting it, so the second call to
`getFunctionVector` returns twice the function vector instead of the same
vector: on the single-add function the first request yields `[1,3]`, the
second `[2,6]`, and the two are not approximately equal at any tolerance
below 1 (shown here at 1/1000000). -/
theorem c1_function_vector_accumulates :
    (getFunctionVector addEmbedder (initState addEmbedder)).2 = [1, 3]
    ∧ (getFunctionVector addEmbedder
        (getFunctionVector addEmbedder (initState addEmbedder)).1).2 = [2, 6]
    ∧ Embedding.approximatelyEquals
        (getFunctionVector addEmbedder (initState addEmbedder)).2
        (getFunctionVector addEmbedder
          (getFunctionVector addEmbedder (initState addEmbedder)).1).2
        (1 / 1000000) = false := by
  with_unfolding_all decide

/-- C9: for an external declaration (no body), any sequence of the three
whole-function accessors leaves both caches empty, and the function vector
returned is the all-zero vector of the engine's dimension. -/
theorem c9_declaration_all_zero (E : Embedder) (h : E.func.blocks = [])
    (l : List Accessor) :
    (runAccessors E (initState E) l).instVecMap = []
    ∧ (runAccessors E (initState E) l).bbVecMap = []
    ∧ (getFunctionVector E (runAccessors E (initState E) l)).2 = zeroVec E.dim := by
  have hacc : ∀ (s : EState) (a : Accessor), runAccessor E s a = s := by
    intro s a
    cases a <;>
      simp [runAccessor, getInstVecMap, getBBVecMap, getFunctionVector,
        computeF_of_declaration E h, ite_self]
  have hrun : ∀ (l' : List Accessor) (s : EState), runAccessors E s l' = s := by
    intro l'
    induction l' with
    | nil => intro s; rfl
    | cons a rest ih =>
      intro s
      rw [runAccessors, List.foldl_cons, hacc]
      exact ih s
  rw [hrun]
  refine ⟨rfl, rfl, ?_⟩
  rw [getFunctionVector]
  rw [computeF_of_declaration E h]
  rfl

/-- A declaration (no body) and its engine, used as the C9 witness input. -/
def declEmbedder : Embedder := mkEmbedder ⟨[]⟩ vocabEx

/-- Witness for C9 at a concrete declaration and a concrete interleaving of
the three accessors. -/
theorem c9_declaration_all_zero_witness :
    (runAccessors declEmbedder (initState declEmbedder)
        [.funcVecAcc, .instMapAcc, .bbMapAcc, .funcVecAcc]).instVecMap = []
    ∧ (runAccessors declEmbedder (initState declEmbedder)
        [.funcVecAcc, .instMapAcc, .bbMapAcc, .funcVecAcc]).bbVecMap = []
    ∧ (getFunctionVector declEmbedder (runAccessors declEmbedder (initState declEmbedder)
        [.funcVecAcc, .instMapAcc, .bbMapAcc, .funcVecAcc])).2 = zeroVec declEmbedder.dim :=
  c9_declaration_all_zero declEmbedder rfl
    [.funcVecAcc, .instMapAcc, .bbMapAcc, .funcVecAcc]

/-- C3 (amended): requesting a single block's vector while the cache is
empty triggers the single-block computation only — afterwards the block map
holds exactly the requested block's entry, the instruction map exactly that
block's non-debug instructions, and the function vector is untouched. -/
theorem c3_getBBVector_computes_single_block (E : Embedder) (bb : BasicBlock) :
    (getBBVector E bb (initState E)).2 = bbVec E bb
    ∧ (getBBVector E bb (initState E)).1.bbVecMap = [(bb.bid, bbVec E bb)]
    ∧ (∀ p ∈ nonDebug bb,
        alookup (getBBVector E bb (initState E)).1.instVecMap (bb.bid, p.1)
          = some (instVec E p.2))
    ∧ (∀ k : Nat × Nat, k.1 ≠ bb.bid →
        alookup (getBBVector E bb (initState E)).1.instVecMap k = none)
    ∧ (getBBVector E bb (initState E)).1.funcVector = zeroVec E.dim := by
  have hstate : getBBVector E bb (initState E)
      = (computeEmbeddingsBB E bb (initState E),
         (alookup (computeEmbeddingsBB E bb (initState E)).bbVecMap bb.bid).getD []) := rfl
  have hbbmap : (computeEmbeddingsBB E bb (initState E)).bbVecMap
      = [(bb.bid, bbVec E bb)] := rfl
  have hinstmap : (computeEmbeddingsBB E bb (initState E)).instVecMap
      = (nonDebug bb).foldl (fun m p => upsert m (bb.bid, p.1) (instVec E p.2)) [] := rfl
  refine ⟨?_, ?_, ?_, ?_, ?_⟩
  · rw [hstate]
    simp [hbbmap, alookup_cons]
  · rw [hstate, hbbmap]
  · intro p hp
    rw [hstate]
    simp only [hinstmap]
    have := alookup_foldl_upsert_mem (fun p : Nat × Instruction => (bb.bid, p.1))
      (fun p => instVec E p.2) (nonDebug bb) [] (nonDebug_keys_nodup bb) p hp
    exact this
  · intro k hk
    rw [hstate]
    simp only [hinstmap]
    rw [alookup_foldl_upsert_of_not_mem]
    · rfl
    · intro hmem
      rcases List.mem_map.1 hmem with ⟨p, _, hp⟩
      exact hk (by rw [← hp])
  · rw [hstate]
    rfl

/-- The entry block of the two-block function: one add instruction, one
successor. -/
def twoBlockA : BasicBlock := ⟨0, [addInst], [1]⟩

/-- The second reachable block of the two-block function. -/
def twoBlockB : BasicBlock := ⟨1, [addInst], []⟩

/-- A function with two reachable blocks (entry 0 → 1). -/
def twoBlockFunc : LFunction := ⟨[twoBlockA, twoBlockB]⟩

/-- The engine for the two-block function. -/
def twoBlockEmbedder : Embedder := mkEmbedder twoBlockFunc vocabEx

/-- Counterexample to C3 as stated: on a function with two reachable blocks,
`getBBVector` on the entry block with an empty cache does not fill the block
map for every reachable block — block 1 is reachable yet absent. -/
theorem c3_counterexample :
    Reaches twoBlockFunc 1
    ∧ dfsIds twoBlockFunc = [0, 1]
    ∧ alookup (getBBVector twoBlockEmbedder twoBlockA
        (initState twoBlockEmbedder)).1.bbVecMap 1 = none := by
  refine ⟨?_, by decide, by with_unfolding_all decide⟩
  exact Reaches.step 0 1 (Reaches.entry twoBlockA rfl) (by decide)

/-- C5: for a function with a body (well-formed CFG: distinct block ids,
successors resolve to blocks), the function vector returned by
`getFunctionVector` is the running sum of the block vectors of exactly the
depth-first-visited blocks; a block id is visited iff it is reachable from
entry; every visited block's vector is stored; and an unreachable block has
no entry in the block map and none of its instructions in the instruction
map. -/
theorem c5_function_vector_sums_reachable_blocks (E : Embedder)
    (hbody : E.func.blocks ≠ []) (hwf : WFCfg E.func) :
    (getFunctionVector E (initState E)).2
        = funcVecFold E (dfsBlocks E.func) (zeroVec E.dim)
    ∧ (dfsBlocks E.func).map (fun b => b.bid) = dfsIds E.func
    ∧ (∀ n, n ∈ dfsIds E.func ↔ Reaches E.func n)
    ∧ (∀ bb ∈ dfsBlocks E.func,
        alookup (getFunctionVector E (initState E)).1.bbVecMap bb.bid
          = some (bbVec E bb))
    ∧ (∀ n, (alookup (getFunctionVector E (initState E)).1.bbVecMap n).isSome
          ↔ Reaches E.func n)
    ∧ (∀ b ∈ E.func.blocks, ¬ Reaches E.func b.bid →
        alookup (getFunctionVector E (initState E)).1.bbVecMap b.bid = none
        ∧ ∀ ix : Nat,
            alookup (getFunctionVector E (initState E)).1.instVecMap (b.bid, ix) = none) := by
  have hmap : (dfsBlocks E.func).map (fun b => b.bid) = dfsIds E.func :=
    dfsBlocks_map_bid E.func hwf
  have hiff : ∀ n, n ∈ dfsIds E.func ↔ Reaches E.func n :=
    fun n => ⟨reaches_of_mem_dfsIds E.func n, mem_dfsIds_of_reaches E.func n⟩
  have hnd : ((dfsBlocks E.func).map (fun b => b.bid)).Nodup := by
    rw [hmap]
    exact dfsIds_nodup E.func
  have hstate : (getFunctionVector E (initState E)).1 = computeEmbeddingsF E (initState E) := rfl
  have hcf := computeF_of_ne_nil E hbody (initState E)
  refine ⟨?_, hmap, hiff, ?_, ?_, ?_⟩
  · show (computeEmbeddingsF E (initState E)).funcVector = _
    rw [hcf]
    rfl
  · intro bb hbb
    rw [hstate, hcf]
    show alookup (bbMapFold E (dfsBlocks E.func) []) bb.bid = _
    exact alookup_bbMapFold_mem E _ [] hnd bb hbb
  · intro n
    rw [hstate, hcf]
    show (alookup (bbMapFold E (dfsBlocks E.func) []) n).isSome ↔ _
    rw [alookup_bbMapFold_isSome, hmap]
    simp only [alookup_nil, Option.isSome_none, Bool.false_eq_true, or_false]
    exact hiff n
  · intro b hb hnr
    have hnotin : b.bid ∉ dfsIds E.func := fun hmem => hnr ((hiff b.bid).1 hmem)
    constructor
    · rw [hstate, hcf]
      show alookup (bbMapFold E (dfsBlocks E.func) []) b.bid = none
      rw [alookup_bbMapFold_of_not_mem E _ [] b.bid (by rw [hmap]; exact hnotin)]
      rfl
    · intro ix
      rw [hstate, hcf]
      show alookup (instMapFold E (dfsBlocks E.func) []) (b.bid, ix) = none
      rw [alookup_instMapFold_of_fst_ne]
      · rfl
      · intro bb hbb hbid
        apply hnotin
        rw [show b.bid = bb.bid from hbid, ← hmap]
        exact List.mem_map_of_mem _ hbb

/-- A function with an unreachable third block (id 2), used as the C5
witness input. -/
def unreachFunc : LFunction := ⟨[twoBlockA, twoBlockB, ⟨2, [addInst], []⟩]⟩

/-- The engine for `unreachFunc`. -/
def unreachEmbedder : Embedder := mkEmbedder unreachFunc vocabEx

/-- Witness for C5 at a concrete function with a reachable pair of blocks
and one unreachable block. -/
theorem c5_function_vector_sums_reachable_blocks_witness :
    (getFunctionVector unreachEmbedder (initState unreachEmbedder)).2
        = funcVecFold unreachEmbedder (dfsBlocks unreachFunc) (zeroVec unreachEmbedder.dim)
    ∧ (dfsBlocks unreachFunc).map (fun b => b.bid) = dfsIds unreachFunc
    ∧ (∀ n, n ∈ dfsIds unreachFunc ↔ Reaches unreachFunc n)
    ∧ (∀ bb ∈ dfsBlocks unreachFunc,
        alookup (getFunctionVector unreachEmbedder
          (initState unreachEmbedder)).1.bbVecMap bb.bid = some (bbVec unreachEmbedder bb))
    ∧ (∀ n, (alookup (getFunctionVector unreachEmbedder
          (initState unreachEmbedder)).1.bbVecMap n).isSome ↔ Reaches unreachFunc n)
    ∧ (∀ b ∈ unreachFunc.blocks, ¬ Reaches unreachFunc b.bid →
        alookup (getFunctionVector unreachEmbedder
          (initState unreachEmbedder)).1.bbVecMap b.bid = none
        ∧ ∀ ix : Nat,
            alookup (getFunctionVector unreachEmbedder
              (initState unreachEmbedder)).1.instVecMap (b.bid, ix) = none) :=
  c5_function_vector_sums_reachable_blocks unreachEmbedder (by decide)
    ⟨by decide, by decide⟩

/-! ### Loader reduction and inversion lemmas -/

theorem parseVocabSection_no_root (key : String) (root : JValue)
    (h : getAsObject root = none) :
    parseVocabSection key root = some (.error "JSON root is not an object") := by
  simp only [parseVocabSection, h]

theorem parseVocabSection_missing (key : String) (root : JValue)
    (fs : List (String × JValue)) (hfs : getAsObject root = some fs)
    (hget : objGet fs key = none) :
    parseVocabSection key root
      = some (.error ("Missing '" ++ key ++ "' section in vocabulary file")) := by
  simp only [parseVocabSection, hfs, hget]

theorem parseVocabSection_undecodable (key : String) (root : JValue)
    (fs : List (String × JValue)) (sv : JValue) (hfs : getAsObject root = some fs)
    (hget : objGet fs key = some sv) (hdec : decodeVocabMap sv = none) :
    parseVocabSection key root
      = some (.error ("Unable to parse '" ++ key ++ "' section from vocabulary")) := by
  simp only [parseVocabSection, hfs, hget, hdec]

theorem parseVocabSection_empty (key : String) (root : JValue)
    (fs : List (String × JValue)) (sv : JValue) (hfs : getAsObject root = some fs)
    (hget : objGet fs key = some sv) (hdec : decodeVocabMap sv = some []) :
    parseVocabSection key root = none := by
  simp only [parseVocabSection, hfs, hget, hdec]

theorem parseVocabSection_decoded (key : String) (root : JValue)
    (fs : List (String × JValue)) (sv : JValue) (e0 : String × Embedding)
    (rest : Vocab) (hfs : getAsObject root = some fs)
    (hget : objGet fs key = some sv) (hdec : decodeVocabMap sv = some (e0 :: rest)) :
    parseVocabSection key root =
      (if e0.2.length = 0 then
        some (.error ("Dimension of '" ++ key ++ "' section of the vocabulary is zero"))
      else if (e0 :: rest).all (fun p => decide (p.2.length = e0.2.length)) then
        some (.ok (e0 :: rest, e0.2.length))
      else
        some (.error ("All vectors in the '" ++ key ++
          "' section of the vocabulary are not of the same dimension"))) := by
  simp only [parseVocabSection, hfs, hget, hdec]

theorem parseVocabSection_ok_elim (key : String) (root : JValue) (m : Vocab) (d : Nat)
    (h : parseVocabSection key root = some (.ok (m, d))) :
    m ≠ [] ∧ d = (vocabDim m) ∧ d ≠ 0
      ∧ ∀ p ∈ m, p.2.length = d := by
  cases hro : getAsObject root with
  | none =>
    rw [parseVocabSection_no_root key root hro] at h
    cases h
  | some fs =>
    cases hget : objGet fs key with
    | none =>
      rw [parseVocabSection_missing key root fs hro hget] at h
      cases h
    | some sv =>
      cases hdec : decodeVocabMap sv with
      | none =>
        rw [parseVocabSection_undecodable key root fs sv hro hget hdec] at h
        cases h
      | some dm =>
        cases dm with
        | nil =>
          rw [parseVocabSection_empty key root fs sv hro hget hdec] at h
          cases h
        | cons e0 rest =>
          rw [parseVocabSection_decoded key root fs sv e0 rest hro hget hdec] at h
          by_cases h0 : e0.2.length = 0
          · rw [if_pos h0] at h
            cases h
          · rw [if_neg h0] at h
            cases hall : (e0 :: rest).all (fun p => decide (p.2.length = e0.2.length)) with
            | false => rw [hall] at h; simp at h
            | true =>
              rw [hall] at h
              simp only [if_true, Option.some.injEq, Except.ok.injEq, Prod.mk.injEq] at h
              obtain ⟨hm, hd⟩ := h
              subst hm
              subst hd
              refine ⟨by simp, rfl, h0, ?_⟩
              intro p hp
              have := List.all_eq_true.1 hall p hp
              simpa using this

theorem readVocabulary_error_opcodes (w1 w2 w3 : ℚ) (root : JValue) (e : String)
    (h : parseVocabSection "Opcodes" root = some (.error e)) :
    readVocabulary w1 w2 w3 root = some (.error e) := by
  simp only [readVocabulary, h]

theorem readVocabulary_error_types (w1 w2 w3 : ℚ) (root : JValue)
    (o : Vocab) (d1 : Nat) (e : String)
    (hO : parseVocabSection "Opcodes" root = some (.ok (o, d1)))
    (h : parseVocabSection "Types" root = some (.error e)) :
    readVocabulary w1 w2 w3 root = some (.error e) := by
  simp only [readVocabulary, hO, h]

theorem readVocabulary_error_arguments (w1 w2 w3 : ℚ) (root : JValue)
    (o : Vocab) (d1 : Nat) (t : Vocab) (d2 : Nat) (e : String)
    (hO : parseVocabSection "Opcodes" root = some (.ok (o, d1)))
    (hT : parseVocabSection "Types" root = some (.ok (t, d2)))
    (h : parseVocabSection "Arguments" root = some (.error e)) :
    readVocabulary w1 w2 w3 root = some (.error e) := by
  simp only [readVocabulary, hO, hT, h]

theorem readVocabulary_dim_mismatch (w1 w2 w3 : ℚ) (root : JValue)
    (o : Vocab) (d1 : Nat) (t : Vocab) (d2 : Nat) (a : Vocab) (d3 : Nat)
    (hO : parseVocabSection "Opcodes" root = some (.ok (o, d1)))
    (hT : parseVocabSection "Types" root = some (.ok (t, d2)))
    (hA : parseVocabSection "Arguments" root = some (.ok (a, d3)))
    (hd : ¬(d1 = d2 ∧ d2 = d3)) :
    readVocabulary w1 w2 w3 root
      = some (.error "Vocabulary sections have different dimensions") := by
  simp only [readVocabulary, hO, hT, hA]
  rw [if_neg hd]

theorem readVocabulary_ok_intro (w1 w2 w3 : ℚ) (root : JValue)
    (o : Vocab) (d1 : Nat) (t : Vocab) (d2 : Nat) (a : Vocab) (d3 : Nat)
    (hO : parseVocabSection "Opcodes" root = some (.ok (o, d1)))
    (hT : parseVocabSection "Types" root = some (.ok (t, d2)))
    (hA : parseVocabSection "Arguments" root = some (.ok (a, d3)))
    (hd12 : d1 = d2) (hd23 : d2 = d3) :
    readVocabulary w1 w2 w3 root
      = some (.ok (vocabInsertRange (vocabInsertRange (vocabInsertRange []
          (scaleVocabSection o w1)) (scaleVocabSection t w2))
          (scaleVocabSection a w3))) := by
  simp only [readVocabulary, hO, hT, hA]
  rw [if_pos ⟨hd12, hd23⟩]

theorem readVocabulary_ok_elim (w1 w2 w3 : ℚ) (root : JValue) (V : Vocab)
    (h : readVocabulary w1 w2 w3 root = some (.ok V)) :
    ∃ o d1 t d2 a d3,
      parseVocabSection "Opcodes" root = some (.ok (o, d1))
      ∧ parseVocabSection "Types" root = some (.ok (t, d2))
      ∧ parseVocabSection "Arguments" root = some (.ok (a, d3))
      ∧ d1 = d2 ∧ d2 = d3
      ∧ V = vocabInsertRange (vocabInsertRange (vocabInsertRange []
          (scaleVocabSection o w1)) (scaleVocabSection t w2))
          (scaleVocabSection a w3) := by
  cases hO : parseVocabSection "Opcodes" root with
  | none => simp [readVocabulary, hO] at h
  | some ro =>
    cases ro with
    | error e => simp [readVocabulary, hO] at h
    | ok po =>
      obtain ⟨o, d1⟩ := po
      cases hT : parseVocabSection "Types" root with
      | none => simp [readVocabulary, hO, hT] at h
      | some rt =>
        cases rt with
        | error e => simp [readVocabulary, hO, hT] at h
        | ok pt =>
          obtain ⟨t, d2⟩ := pt
          cases hA : parseVocabSection "Arguments" root with
          | none => simp [readVocabulary, hO, hT, hA] at h
          | some ra =>
            cases ra with
            | error e => simp [readVocabulary, hO, hT, hA] at h
            | ok pa =>
              obtain ⟨a, d3⟩ := pa
              simp only [readVocabulary, hO, hT, hA] at h
              by_cases hd : (d1 = d2 ∧ d2 = d3)
              · rw [if_pos hd] at h
                simp only [Option.some.injEq, Except.ok.injEq] at h
                exact ⟨o, d1, t, d2, a, d3, rfl, rfl, rfl, hd.1, hd.2, h.symm⟩
              · rw [if_neg hd] at h
                simp at h

/-- Lookup in the three-section merge: the first section that holds the key
wins, each section scaled by its weight. -/
theorem merged_vocab_find (o t a : Vocab) (w1 w2 w3 : ℚ) (k : String) :
    alookup (vocabInsertRange (vocabInsertRange (vocabInsertRange []
        (scaleVocabSection o w1)) (scaleVocabSection t w2))
        (scaleVocabSection a w3)) k
      = ofirst ((alookup o k).map (fun e => Embedding.scale e w1))
          (ofirst ((alookup t k).map (fun e => Embedding.scale e w2))
            ((alookup a k).map (fun e => Embedding.scale e w3))) := by
  rw [alookup_insertRange, alookup_insertRange, alookup_insertRange]
  rw [alookup_nil, ofirst_none, ofirst_assoc]
  rw [alookup_scale, alookup_scale, alookup_scale]

/-! ### Failure conditions of vocabulary loading -/

/-- The three section names, in parse order. -/
def sectionKeys : List String := ["Opcodes", "Types", "Arguments"]

/-- The section is absent: either there is no root object at all, or the root
object has no field of that name. -/
def sectionMissing (root : JValue) (key : String) : Prop :=
  getAsObject root = none
  ∨ ∃ fs, getAsObject root = some fs ∧ objGet fs key = none

/-- The section is present but cannot be decoded as a string-to-number-array
object. -/
def sectionUndecodable (root : JValue) (key : String) : Prop :=
  ∃ fs sv, getAsObject root = some fs ∧ objGet fs key = some sv
    ∧ decodeVocabMap sv = none

/-- The section decodes with a first entry of length zero (dimension zero). -/
def sectionDimZero (root : JValue) (key : String) : Prop :=
  ∃ fs sv e0 rest, getAsObject root = some fs ∧ objGet fs key = some sv
    ∧ decodeVocabMap sv = some (e0 :: rest) ∧ (e0 : String × Embedding).2.length = 0

/-- The section decodes with some entry whose length differs from the
dimension, the length of the first entry. -/
def sectionDimInconsistent (root : JValue) (key : String) : Prop :=
  ∃ fs sv e0 rest p, getAsObject root = some fs ∧ objGet fs key = some sv
    ∧ decodeVocabMap sv = some (e0 :: rest)
    ∧ (e0 : String × Embedding).2.length ≠ 0
    ∧ p ∈ e0 :: rest ∧ (p : String × Embedding).2.length ≠ e0.2.length

/-- All three sections parse but their dimensions are not pairwise equal. -/
def crossDimMismatch (root : JValue) : Prop :=
  ∃ o d1 t d2 a d3, parseVocabSection "Opcodes" root = some (.ok (o, d1))
    ∧ parseVocabSection "Types" root = some (.ok (t, d2))
    ∧ parseVocabSection "Arguments" root = some (.ok (a, d3))
    ∧ ¬(d1 = d2 ∧ d2 = d3)

/-- Any of the failure conditions of C7. -/
def loadFailCondition (root : JValue) : Prop :=
  (∃ key ∈ sectionKeys, sectionMissing root key ∨ sectionUndecodable root key
    ∨ sectionDimZero root key ∨ sectionDimInconsistent root key)
  ∨ crossDimMismatch root

theorem parse_error_of_condition (root : JValue) (key : String)
    (h : sectionMissing root key ∨ sectionUndecodable root key
      ∨ sectionDimZero root key ∨ sectionDimInconsistent root key) :
    ∃ e, parseVocabSection key root = some (.error e) := by
  rcases h with h | h | h | h
  · rcases h with h | ⟨fs, hfs, hget⟩
    · exact ⟨_, parseVocabSection_no_root key root h⟩
    · exact ⟨_, parseVocabSection_missing key root fs hfs hget⟩
  · rcases h with ⟨fs, sv, hfs, hget, hdec⟩
    exact ⟨_, parseVocabSection_undecodable key root fs sv hfs hget hdec⟩
  · rcases h with ⟨fs, sv, e0, rest, hfs, hget, hdec, hlen⟩
    refine ⟨"Dimension of '" ++ key ++ "' section of the vocabulary is zero", ?_⟩
    rw [parseVocabSection_decoded key root fs sv e0 rest hfs hget hdec, if_pos hlen]
  · rcases h with ⟨fs, sv, e0, rest, p, hfs, hget, hdec, hdim, hpmem, hplen⟩
    refine ⟨"All vectors in the '" ++ key ++
      "' section of the vocabulary are not of the same dimension", ?_⟩
    rw [parseVocabSection_decoded key root fs sv e0 rest hfs hget hdec, if_neg hdim]
    cases hall : (e0 :: rest).all (fun q => decide (q.2.length = e0.2.length)) with
    | true =>
      exfalso
      apply hplen
      have := List.all_eq_true.1 hall p hpmem
      simpa using this
    | false =>
      rw [if_neg (by simp [hall])]

/-! ### Claim theorems: the vocabulary loader -/

/-- C7: loading errors out (and hence produces no vocabulary) whenever a
section is missing or undecodable, a section's dimension is zero, a section
has an entry whose length differs from the section's dimension, or all three
sections parse but their dimensions are not pairwise equal — provided no
section hits the empty-section undefined behaviour first (the `isSome`
hypothesis). -/
theorem c7_load_error_conditions (w1 w2 w3 : ℚ) (root : JValue)
    (hfail : loadFailCondition root)
    (hnoUB : ∀ key ∈ sectionKeys, (parseVocabSection key root).isSome) :
    ∃ e, readVocabulary w1 w2 w3 root = some (.error e) := by
  rcases hfail with ⟨key, hkey, hcond⟩ | hcross
  · rcases parse_error_of_condition root key hcond with ⟨e, he⟩
    have hkey' : key = "Opcodes" ∨ key = "Types" ∨ key = "Arguments" := by
      simpa [sectionKeys] using hkey
    rcases hkey' with hk | hk | hk
    · subst hk
      exact ⟨e, readVocabulary_error_opcodes w1 w2 w3 root e he⟩
    · subst hk
      cases hO : parseVocabSection "Opcodes" root with
      | none =>
        exfalso
        have := hnoUB "Opcodes" (by simp [sectionKeys])
        rw [hO] at this
        cases this
      | some ro =>
        cases ro with
        | error e0 => exact ⟨e0, readVocabulary_error_opcodes w1 w2 w3 root e0 hO⟩
        | ok po =>
          obtain ⟨o, d1⟩ := po
          exact ⟨e, readVocabulary_error_types w1 w2 w3 root o d1 e hO he⟩
    · subst hk
      cases hO : parseVocabSection "Opcodes" root with
      | none =>
        exfalso
        have := hnoUB "Opcodes" (by simp [sectionKeys])
        rw [hO] at this
        cases this
      | some ro =>
        cases ro with
        | error e0 => exact ⟨e0, readVocabulary_error_opcodes w1 w2 w3 root e0 hO⟩
        | ok po =>
          obtain ⟨o, d1⟩ := po
          cases hT : parseVocabSection "Types" root with
          | none =>
            exfalso
            have := hnoUB "Types" (by simp [sectionKeys])
            rw [hT] at this
            cases this
          | some rt =>
            cases rt with
            | error e1 =>
              exact ⟨e1, readVocabulary_error_types w1 w2 w3 root o d1 e1 hO hT⟩
            | ok pt =>
              obtain ⟨t, d2⟩ := pt
              exact ⟨e, readVocabulary_error_arguments w1 w2 w3 root o d1 t d2 e hO hT he⟩
  · rcases hcross with ⟨o, d1, t, d2, a, d3, hO, hT, hA, hd⟩
    exact ⟨_, readVocabulary_dim_mismatch w1 w2 w3 root o d1 t d2 a d3 hO hT hA hd⟩

/-- The root fields of the C7 witness document: the `Types` section has one
entry of length 3 and another of length 4 (the spec's example). -/
def badTypesFields : List (String × JValue) :=
  [("Opcodes", .obj [("op", .arr [.num 1, .num 2, .num 3])]),
   ("Types", .obj [("t1", .arr [.num 1, .num 2, .num 3]),
                   ("t2", .arr [.num 1, .num 2, .num 3, .num 4])]),
   ("Arguments", .obj [("ar", .arr [.num 1, .num 2, .num 3])])]

/-- The C7 witness document. -/
def badTypesDoc : JValue := .obj badTypesFields

/-- Witness for C7: the dimension-inconsistent `Types` section makes loading
fail. -/
theorem c7_load_error_conditions_witness :
    ∃ e, readVocabulary 1 1 1 badTypesDoc = some (.error e) :=
  c7_load_error_conditions 1 1 1 badTypesDoc
    (Or.inl ⟨"Types", by decide,
      Or.inr (Or.inr (Or.inr ⟨badTypesFields,
        .obj [("t1", .arr [.num 1, .num 2, .num 3]),
              ("t2", .arr [.num 1, .num 2, .num 3, .num 4])],
        ("t1", [1, 2, 3]), [("t2", [1, 2, 3, 4])], ("t2", [1, 2, 3, 4]),
        rfl, rfl, rfl, by decide, by decide, by decide⟩))⟩)
    (by decide)

/-- Helper: the merged vocabulary of a successful load resolves every key to
the first of the three (scaled) sections holding it, in merge order. -/
theorem readVocabulary_ok_find (w1 w2 w3 : ℚ) (root : JValue)
    (o : Vocab) (d1 : Nat) (t : Vocab) (d2 : Nat) (a : Vocab) (d3 : Nat) (V : Vocab)
    (hO : parseVocabSection "Opcodes" root = some (.ok (o, d1)))
    (hT : parseVocabSection "Types" root = some (.ok (t, d2)))
    (hA : parseVocabSection "Arguments" root = some (.ok (a, d3)))
    (hd12 : d1 = d2) (hd23 : d2 = d3)
    (hV : readVocabulary w1 w2 w3 root = some (.ok V)) :
    ∀ k, vocabFind V k
      = ofirst ((alookup o k).map (fun e => Embedding.scale e w1))
          (ofirst ((alookup t k).map (fun e => Embedding.scale e w2))
            ((alookup a k).map (fun e => Embedding.scale e w3))) := by
  intro k
  have hok := readVocabulary_ok_intro w1 w2 w3 root o d1 t d2 a d3 hO hT hA hd12 hd23
  rw [hok] at hV
  simp only [Option.some.injEq, Except.ok.injEq] at hV
  rw [vocabFind, ← hV]
  exact merged_vocab_find o t a w1 w2 w3 k

/-- C2 (amended): when the same key occurs in more than one section, the
EARLIER-merged section wins — `std::map::insert` does not overwrite existing
keys, so the merged vocabulary resolves a key to the Opcodes entry first,
then Types, then Arguments, each scaled by its weight. -/
theorem c2_merge_earlier_section_wins (w1 w2 w3 : ℚ) (root : JValue)
    (o : Vocab) (d1 : Nat) (t : Vocab) (d2 : Nat) (a : Vocab) (d3 : Nat) (V : Vocab)
    (hO : parseVocabSection "Opcodes" root = some (.ok (o, d1)))
    (hT : parseVocabSection "Types" root = some (.ok (t, d2)))
    (hA : parseVocabSection "Arguments" root = some (.ok (a, d3)))
    (hd12 : d1 = d2) (hd23 : d2 = d3)
    (hV : readVocabulary w1 w2 w3 root = some (.ok V)) :
    ∀ k, vocabFind V k
      = ofirst ((alookup o k).map (fun e => Embedding.scale e w1))
          (ofirst ((alookup t k).map (fun e => Embedding.scale e w2))
            ((alookup a k).map (fun e => Embedding.scale e w3))) :=
  readVocabulary_ok_find w1 w2 w3 root o d1 t d2 a d3 V hO hT hA hd12 hd23 hV

/-- The C2 counterexample document: the key `x` occurs in both the Opcodes
section (as `[1,2]`) and the Types section (as `[3,4]`). -/
def collideDoc : JValue := .obj
  [("Opcodes", .obj [("x", .arr [.num 1, .num 2])]),
   ("Types", .obj [("x", .arr [.num 3, .num 4]), ("y", .arr [.num 0, .num 0])]),
   ("Arguments", .obj [("z", .arr [.num 5, .num 6])])]

/-- Counterexample to C2 as stated: with unit weights, the merged vocabulary
maps the colliding key `x` to the Opcodes entry `[1,2]`, not to the
later-merged Types entry `[3,4]`. -/
theorem c2_counterexample :
    readVocabulary 1 1 1 collideDoc
      = some (.ok [("x", [1, 2]), ("y", [0, 0]), ("z", [5, 6])])
    ∧ vocabFind [("x", [1, 2]), ("y", [0, 0]), ("z", [5, 6])] "x" = some [1, 2]
    ∧ (some [1, 2] : Option Embedding) ≠ some [3, 4] := by
  with_unfolding_all decide

/-- Witness for C2 (amended) at the collision document and the colliding key
`x`: the merged vocabulary resolves `x` to the Opcodes section's entry. -/
theorem c2_merge_earlier_section_wins_witness :
    vocabFind [("x", [1, 2]), ("y", [0, 0]), ("z", [5, 6])] "x"
      = ofirst ((alookup [("x", [1, 2])] "x").map (fun e => Embedding.scale e 1))
          (ofirst ((alookup [("x", [3, 4]), ("y", [0, 0])] "x").map
              (fun e => Embedding.scale e 1))
            ((alookup [("z", [5, 6])] "x").map (fun e => Embedding.scale e 1))) :=
  c2_merge_earlier_section_wins 1 1 1 collideDoc
    [("x", [1, 2])] 2 [("x", [3, 4]), ("y", [0, 0])] 2 [("z", [5, 6])] 2
    [("x", [1, 2]), ("y", [0, 0]), ("z", [5, 6])]
    (by decide) (by decide) (by decide) rfl rfl
    (by with_unfolding_all decide) "x"

/-- C6: `lookupVocab` on a non-empty vocabulary returns the stored embedding
and leaves the miss counter unchanged on a hit; on a miss it returns the
zero vector of the vocabulary's dimension and increments the counter by
exactly one. -/
theorem c6_lookupVocab_hit_miss (vocab : Vocab) (key : String) (counter : Nat)
    (hne : vocab ≠ []) :
    (∀ v, vocabFind vocab key = some v →
        lookupVocab vocab (vocabDim vocab) key counter = (v, counter))
    ∧ (vocabFind vocab key = none →
        lookupVocab vocab (vocabDim vocab) key counter
          = (zeroVec (vocabDim vocab), counter + 1)) := by
  have hne' : vocab ≠ [] := hne
  constructor
  · intro v hv
    unfold lookupVocab
    rw [hv]
  · intro hv
    unfold lookupVocab
    rw [hv]

/-- Witness for C6 at the spec's example vocabulary: the unknown key `foo`
misses (zero vector, counter bumped from 0 to 1); the known key `add`
returns `[1,0]` exactly with the counter untouched. -/
theorem c6_lookupVocab_hit_miss_witness :
    lookupVocab vocabEx (vocabDim vocabEx) "foo" 0 = (zeroVec (vocabDim vocabEx), 1)
    ∧ lookupVocab vocabEx (vocabDim vocabEx) "add" 5 = ([1, 0], 5) :=
  ⟨(c6_lookupVocab_hit_miss vocabEx "foo" 0 (by decide)).2 (by decide),
   (c6_lookupVocab_hit_miss vocabEx "add" 5 (by decide)).1 [1, 0] (by decide)⟩

/-- C8: after validation and before merging, every section vector is scaled
element-wise by its section's weight, and a section entry that is not
shadowed by an earlier-merged section appears in the merged vocabulary as
its scaled vector. -/
theorem c8_sections_scaled_before_merge (w1 w2 w3 : ℚ) (root : JValue)
    (o : Vocab) (d1 : Nat) (t : Vocab) (d2 : Nat) (a : Vocab) (d3 : Nat) (V : Vocab)
    (hO : parseVocabSection "Opcodes" root = some (.ok (o, d1)))
    (hT : parseVocabSection "Types" root = some (.ok (t, d2)))
    (hA : parseVocabSection "Arguments" root = some (.ok (a, d3)))
    (hd12 : d1 = d2) (hd23 : d2 = d3)
    (hV : readVocabulary w1 w2 w3 root = some (.ok V)) :
    (∀ k v, alookup o k = some v →
        alookup (scaleVocabSection o w1) k = some (Embedding.scale v w1))
    ∧ (∀ k v, alookup t k = some v →
        alookup (scaleVocabSection t w2) k = some (Embedding.scale v w2))
    ∧ (∀ k v, alookup a k = some v →
        alookup (scaleVocabSection a w3) k = some (Embedding.scale v w3))
    ∧ (∀ k v, alookup o k = some v → vocabFind V k = some (Embedding.scale v w1))
    ∧ (∀ k v, alookup t k = some v → alookup o k = none →
        vocabFind V k = some (Embedding.scale v w2))
    ∧ (∀ k v, alookup a k = some v → alookup o k = none → alookup t k = none →
        vocabFind V k = some (Embedding.scale v w3)) := by
  have hfind := readVocabulary_ok_find w1 w2 w3 root o d1 t d2 a d3 V
    hO hT hA hd12 hd23 hV
  refine ⟨?_, ?_, ?_, ?_, ?_, ?_⟩
  · intro k v hv
    rw [alookup_scale, hv]
    rfl
  · intro k v hv
    rw [alookup_scale, hv]
    rfl
  · intro k v hv
    rw [alookup_scale, hv]
    rfl
  · intro k v hv
    rw [hfind k, hv]
    rfl
  · intro k v hv ho
    rw [hfind k, hv, ho]
    rfl
  · intro k v hv ho ht
    rw [hfind k, hv, ho, ht]
    rfl

/-- The C8 witness document: a Types entry `[2,4]` loaded with type weight
1/2. -/
def scaleDoc : JValue := .obj
  [("Opcodes", .obj [("op", .arr [.num 1, .num 1])]),
   ("Types", .obj [("ty", .arr [.num 2, .num 4])]),
   ("Arguments", .obj [("ar", .arr [.num 0, .num 0])])]

/-- Witness for C8: the Types entry `[2,4]` with weight 1/2 appears in the
merged vocabulary as its scaled vector, which is `[1,2]`. -/
theorem c8_sections_scaled_before_merge_witness :
    vocabFind [("op", [1, 1]), ("ty", [1, 2]), ("ar", [0, 0])] "ty"
        = some (Embedding.scale [2, 4] (1 / 2))
    ∧ Embedding.scale [2, 4] (1 / 2) = [1, 2] :=
  ⟨(c8_sections_scaled_before_merge 1 (1 / 2) 1 scaleDoc
      [("op", [1, 1])] 2 [("ty", [2, 4])] 2 [("ar", [0, 0])] 2
      [("op", [1, 1]), ("ty", [1, 2]), ("ar", [0, 0])]
      (by decide) (by decide) (by decide) rfl rfl
      (by with_unfolding_all decide)).2.2.2.2.1 "ty" [2, 4] (by decide) (by decide),
   by with_unfolding_all decide⟩

/-- C10: `parseVocabSection` reads the first entry's size before any
emptiness check, so a section value that decodes to an empty object hits the
unguarded end-iterator dereference (modelled as the `none` outcome) and the
zero-dimension error branch presupposes a first entry; consequently a
successful section parse returns a non-empty section, and a successful load
implies all three sections and the merged vocabulary are non-empty. -/
theorem c10_empty_section_hits_ub :
    (∀ key root fs sv, getAsObject root = some fs → objGet fs key = some sv →
        decodeVocabMap sv = some [] → parseVocabSection key root = none)
    ∧ (∀ key root m d, parseVocabSection key root = some (.ok (m, d)) → m ≠ [])
    ∧ (∀ (w1 w2 w3 : ℚ) root V, readVocabulary w1 w2 w3 root = some (.ok V) →
        V ≠ [] ∧ ∀ key ∈ sectionKeys,
          ∃ m d, parseVocabSection key root = some (.ok (m, d)) ∧ m ≠ []) := by
  refine ⟨?_, ?_, ?_⟩
  · intro key root fs sv hfs hget hdec
    exact parseVocabSection_empty key root fs sv hfs hget hdec
  · intro key root m d h
    exact (parseVocabSection_ok_elim key root m d h).1
  · intro w1 w2 w3 root V h
    obtain ⟨o, d1, t, d2, a, d3, hO, hT, hA, hd12, hd23, hVeq⟩ :=
      readVocabulary_ok_elim w1 w2 w3 root V h
    constructor
    · rw [hVeq]
      have hone : o ≠ [] := (parseVocabSection_ok_elim _ _ _ _ hO).1
      have hs : scaleVocabSection o w1 ≠ [] := by
        intro hnil
        apply hone
        have hlen := congrArg List.length hnil
        simpa [scaleVocabSection] using hlen
      have h1 : vocabInsertRange [] (scaleVocabSection o w1) ≠ [] := by
        cases hsrc : scaleVocabSection o w1 with
        | nil => exact absurd hsrc hs
        | cons p ps =>
          have hstep : vocabInsertRange [] (p :: ps) = vocabInsertRange [p] ps := by
            simp [vocabInsertRange, alookup_nil]
          rw [hstep]
          exact insertRange_ne_nil [p] ps (by simp)
      exact insertRange_ne_nil _ _ (insertRange_ne_nil _ _ h1)
    · intro key hkey
      have hkey' : key = "Opcodes" ∨ key = "Types" ∨ key = "Arguments" := by
        simpa [sectionKeys] using hkey
      rcases hkey' with hk | hk | hk
      · rw [hk]
        exact ⟨o, d1, hO, (parseVocabSection_ok_elim _ _ _ _ hO).1⟩
      · rw [hk]
        exact ⟨t, d2, hT, (parseVocabSection_ok_elim _ _ _ _ hT).1⟩
      · rw [hk]
        exact ⟨a, d3, hA, (parseVocabSection_ok_elim _ _ _ _ hA).1⟩

/-- The root fields of the C10 witness document: its `Types` section is an
empty object. -/
def emptyTypesFields : List (String × JValue) :=
  [("Opcodes", .obj [("k", .arr [.num 1])]),
   ("Types", .obj []),
   ("Arguments", .obj [("k", .arr [.num 1])])]

/-- The C10 witness document. -/
def emptyTypesDoc : JValue := .obj emptyTypesFields

/-- Witness for C10: the empty `Types` section makes `parseVocabSection` hit
the undefined dereference, and a section that parses successfully is
non-empty. -/
theorem c10_empty_section_hits_ub_witness :
    parseVocabSection "Types" emptyTypesDoc = none
    ∧ ([("k", [1])] : Vocab) ≠ [] :=
  ⟨c10_empty_section_hits_ub.1 "Types" emptyTypesDoc emptyTypesFields
      (.obj []) rfl rfl rfl,
   c10_empty_section_hits_ub.2.1 "Opcodes" emptyTypesDoc [("k", [1])] 1 (by decide)⟩

/-- Witness for C3 (amended) at the two-block function: requesting the entry
block's vector on an empty cache computes exactly that block. -/
theorem c3_getBBVector_computes_single_block_witness :
    (getBBVector twoBlockEmbedder twoBlockA (initState twoBlockEmbedder)).2
        = bbVec twoBlockEmbedder twoBlockA
    ∧ (getBBVector twoBlockEmbedder twoBlockA (initState twoBlockEmbedder)).1.bbVecMap
        = [(twoBlockA.bid, bbVec twoBlockEmbedder twoBlockA)]
    ∧ (∀ p ∈ nonDebug twoBlockA,
        alookup (getBBVector twoBlockEmbedder twoBlockA
            (initState twoBlockEmbedder)).1.instVecMap (twoBlockA.bid, p.1)
          = some (instVec twoBlockEmbedder p.2))
    ∧ (∀ k : Nat × Nat, k.1 ≠ twoBlockA.bid →
        alookup (getBBVector twoBlockEmbedder twoBlockA
            (initState twoBlockEmbedder)).1.instVecMap k = none)
    ∧ (getBBVector twoBlockEmbedder twoBlockA (initState twoBlockEmbedder)).1.funcVector
        = zeroVec twoBlockEmbedder.dim :=
  c3_getBBVector_computes_single_block twoBlockEmbedder twoBlockA

end ir2vec
